import Mathlib

/-! # rf-emulator-likwid: windowed power statistics and the broadcast broker

A shallow embedding of the two programs of the repository.

* `cs-component-power.go`: the package-level power figures, `init`, the body of
  the sampling loop of `main`, `GetPower`, and the two snapshot handlers
  `GetCPUPwr` / `GetMemPwr`.
* `system-pwr.go`: the control loop of `Broker.Listen`.

Power figures are `float64` in the source. The sampling loop and `GetPower` are
modelled over exact rationals, so the rounding error of their additions and of
the division by the window size is not modelled. The snapshot handlers round
to cents with a float64 product and a float64 quotient; there both operations
are modelled with the rounding of IEEE 754 binary64 (`float64` below).
-/

namespace PowerEmu

/-! ## The sampling loop of `main` (cs-component-power.go) -/

/-- The eight package-level variables of `cs-component-power.go` together with
the three locals `totalMemPwr`, `totalCpuPwr`, `counter` of the sampling
goroutine in `main`. -/
structure Globals where
  cpuAvgPwr : ℚ
  cpuCurPwr : ℚ
  cpuMinPwr : ℚ
  cpuMaxPwr : ℚ
  memAvgPwr : ℚ
  memCurPwr : ℚ
  memMinPwr : ℚ
  memMaxPwr : ℚ
  totalMemPwr : ℚ
  totalCpuPwr : ℚ
  counter : Nat
  deriving DecidableEq, Repr

/-- State after `init` and the three local initialisations at the top of the
sampling goroutine: every field is zero. -/
def init : Globals :=
  { cpuAvgPwr := 0, cpuCurPwr := 0, cpuMinPwr := 0, cpuMaxPwr := 0,
    memAvgPwr := 0, memCurPwr := 0, memMinPwr := 0, memMaxPwr := 0,
    totalMemPwr := 0, totalCpuPwr := 0, counter := 0 }

/-- Lines 90-93: `if counter == 0 { cpuMinPwr = cpuCurPwr; memMinPwr = memCurPwr }`. -/
def seedMin (g : Globals) : Globals :=
  if g.counter = 0 then { g with cpuMinPwr := g.cpuCurPwr, memMinPwr := g.memCurPwr } else g

/-- Lines 94-96: `counter += 1; totalMemPwr += memCurPwr; totalCpuPwr += cpuCurPwr`. -/
def accumulate (g : Globals) : Globals :=
  { g with counter := g.counter + 1,
           totalMemPwr := g.totalMemPwr + g.memCurPwr,
           totalCpuPwr := g.totalCpuPwr + g.cpuCurPwr }

/-- Lines 98-103: the two CPU comparisons. -/
def clampCpu (g : Globals) : Globals :=
  let g1 := if g.cpuMinPwr > g.cpuCurPwr then { g with cpuMinPwr := g.cpuCurPwr } else g
  if g1.cpuMaxPwr < g1.cpuCurPwr then { g1 with cpuMaxPwr := g1.cpuCurPwr } else g1

/-- Lines 105-110: the two memory comparisons. -/
def clampMem (g : Globals) : Globals :=
  let g1 := if g.memMinPwr > g.memCurPwr then { g with memMinPwr := g.memCurPwr } else g
  if g1.memMaxPwr < g1.memCurPwr then { g1 with memMaxPwr := g1.memCurPwr } else g1

/-- Lines 112-120: when `counter == 60` publish the averages and reset the
counter and both totals. -/
def closeWindow (g : Globals) : Globals :=
  if g.counter = 60 then
    { g with cpuAvgPwr := g.totalCpuPwr / (g.counter : ℚ),
             memAvgPwr := g.totalMemPwr / (g.counter : ℚ),
             counter := 0, totalCpuPwr := 0, totalMemPwr := 0 }
  else g

/-- Lines 90-120: everything the loop does after `GetPower()` has returned. -/
def afterGetPower (g : Globals) : Globals :=
  closeWindow (clampMem (clampCpu (accumulate (seedMin g))))

/-- The effect of `GetPower` on the globals once the tool output has been
reduced to the two sums (lines 230-231): `cpuCurPwr = cpuPwr; memCurPwr = memPwr`. -/
def storeCur (g : Globals) (cpuPwr memPwr : ℚ) : Globals :=
  { g with cpuCurPwr := cpuPwr, memCurPwr := memPwr }

/-- One tick of the sampling loop (lines 87-120) when `GetPower` delivers the
pair `x = (cpu sample, memory sample)`. -/
def tick (g : Globals) (x : ℚ × ℚ) : Globals :=
  afterGetPower (storeCur g x.1 x.2)

/-- The sampling loop run over a finite sequence of delivered samples. -/
def ticks (g : Globals) (xs : List (ℚ × ℚ)) : Globals :=
  xs.foldl tick g

/-! ## `GetPower` (cs-component-power.go) -/

/-- A Go string, as the list of its characters. -/
abbrev GoString := List Char

/-- Whether `p` is an initial segment of `s`. -/
def startsWith : GoString → GoString → Bool
  | _, [] => true
  | [], _ :: _ => false
  | c :: cs, p :: ps => c == p && startsWith cs ps

/-- Go `strings.Contains(s, sub)`. -/
def Contains : GoString → GoString → Bool
  | [], sub => startsWith [] sub
  | c :: cs, sub => startsWith (c :: cs) sub || Contains cs sub

/-- Go `strings.Split(s, "\n")`: the pieces between newlines; the empty string
gives one empty piece. -/
def splitLines : GoString → List GoString
  | [] => [[]]
  | c :: cs =>
    if c = '\n' then [] :: splitLines cs
    else
      match splitLines cs with
      | [] => [[c]]
      | l :: ls => (c :: l) :: ls

/-- Membership in the character class `[\d,]`. -/
def digitOrComma (c : Char) : Bool := c.isDigit || c == ','

/-- Membership in the character class `[\d{2}]`: a digit or one of the two braces. -/
def digitOrBrace (c : Char) : Bool := c.isDigit || c == '{' || c == '}'

/-- The part of the regular expression after the mandatory first digit,
`[\d,]*[\.]?[\d{2}]*`, matched greedily at the head of `rest`. Every factor is
optional, so the greedy choice never has to be undone. -/
def matchTail (rest : GoString) : GoString :=
  let a := rest.takeWhile digitOrComma
  let r1 := rest.dropWhile digitOrComma
  match r1 with
  | [] => a
  | c :: r2 =>
    if c = '.' then a ++ '.' :: r2.takeWhile digitOrBrace
    else a ++ r1.takeWhile digitOrBrace

/-- The match of `[-]?\d[\d,]*[\.]?[\d{2}]*` that starts at the head of `s`, if
there is one. -/
def matchHere : GoString → Option GoString
  | [] => none
  | c :: cs =>
    if c = '-' then
      match cs with
      | [] => none
      | d :: rest => if d.isDigit then some ('-' :: d :: matchTail rest) else none
    else if c.isDigit then some (c :: matchTail cs)
    else none

/-- Go `re.FindString(s)` for the regular expression of line 203: the leftmost
match, or the empty string when there is none. -/
def FindString : GoString → GoString
  | [] => []
  | c :: cs =>
    match matchHere (c :: cs) with
    | some m => m
    | none => FindString cs

/-- The characters a match of the regular expression can contain. -/
def tokenChar (c : Char) : Bool :=
  c == '-' || c.isDigit || c == ',' || c == '.' || c == '{' || c == '}'

/-- Value of a run of decimal digits. -/
def digitsValue (ds : GoString) : Nat :=
  ds.foldl (fun n c => 10 * n + (c.toNat - 48)) 0

/-- Value of `int.frac` for two runs of decimal digits. -/
def decimalValue (ip fp : GoString) : ℚ :=
  ((digitsValue ip * 10 ^ fp.length + digitsValue fp : Nat) : ℚ) / ((10 ^ fp.length : Nat) : ℚ)

/-- An unsigned decimal `digits`, `digits.`, `digits.digits` or `.digits`;
`none` for anything else. -/
def parseUnsigned (s : GoString) : Option ℚ :=
  let ip := s.takeWhile Char.isDigit
  match s.dropWhile Char.isDigit with
  | [] => if ip = [] then none else some (decimalValue ip [])
  | c :: fp =>
    if c = '.' ∧ fp.all Char.isDigit ∧ ¬ (ip = [] ∧ fp = []) then some (decimalValue ip fp)
    else none

/-- Go `val, _ := strconv.ParseFloat(s, 64)` with the error dropped, on the
strings `FindString` can return (characters among `-`, digits, `,`, `.`, braces):
a well-formed signed decimal gives its value, everything else, the empty string
included, is a syntax error, for which `ParseFloat` returns 0. Exponents,
hexadecimal floats, `inf` and `nan` need letters and are not modelled; the
value is the exact rational, not the nearest `float64`. -/
def ParseFloat : GoString → ℚ
  | [] => 0
  | c :: cs =>
    if c = '-' then
      match parseUnsigned cs with
      | some v => -v
      | none => 0
    else if c = '+' then (parseUnsigned cs).getD 0
    else (parseUnsigned (c :: cs)).getD 0

/-- The four locals of `GetPower` that live across loop iterations. -/
structure Scan where
  bMem : Bool
  bCpu : Bool
  cpuPwr : ℚ
  memPwr : ℚ
  deriving DecidableEq, Repr

/-- Lines 193-196: the locals before the loop. -/
def Scan.start : Scan := { bMem := false, bCpu := false, cpuPwr := 0, memPwr := 0 }

/-- Lines 206-228: the body of the loop over the lines of the tool output. -/
def scanLine (st : Scan) (s : GoString) : Scan :=
  if Contains s "PKG".toList then { st with bCpu := true }
  else if Contains s "DRAM".toList then { st with bMem := true }
  else if Contains s "Power consumed".toList then
    let sf := FindString s
    if st.bCpu then { st with bCpu := false, cpuPwr := st.cpuPwr + ParseFloat sf }
    else if st.bMem then { st with bMem := false, memPwr := st.memPwr + ParseFloat sf }
    else st
  else st

/-- A line on which the loop body finds no numeric token whenever it reaches the
"Power consumed" branch. -/
def NoToken (s : GoString) : Prop :=
  Contains s "PKG".toList = false → Contains s "DRAM".toList = false →
    Contains s "Power consumed".toList = true → FindString s = []

instance (s : GoString) : Decidable (NoToken s) := by
  unfold NoToken
  infer_instance

/-- Lines 204-229: the loop over `strings.Split(strResp, "\n")`. -/
def scanOutput (strResp : GoString) : Scan :=
  (splitLines strResp).foldl scanLine Scan.start

/-- The function `GetPower` on a successful run of the tool with output `strResp`
(lines 202-231); a failing `exec.Command` ends the process and is not a state. -/
def GetPower (g : Globals) (strResp : GoString) : Globals :=
  let fin := scanOutput strResp
  storeCur g fin.cpuPwr fin.memPwr

/-- One iteration of the sampling loop on the tool output `strResp`. -/
def tickOn (g : Globals) (strResp : GoString) : Globals :=
  afterGetPower (GetPower g strResp)

/-! ## The snapshot handlers (cs-component-power.go) -/

/-- Go `math.Round`: the nearest integer, halves away from zero. -/
def Round (x : ℚ) : ℚ :=
  if 0 ≤ x then ((⌊x + 1 / 2⌋ : ℤ) : ℚ) else -((⌊-x + 1 / 2⌋ : ℤ) : ℚ)

/-- Nearest integer, ties to the even one: the rounding of the last place of a
float64 result. -/
def roundHalfEven (y : ℚ) : ℤ :=
  if y - ⌊y⌋ < 1 / 2 then ⌊y⌋
  else if 1 / 2 < y - ⌊y⌋ then ⌊y⌋ + 1
  else if ⌊y⌋ % 2 = 0 then ⌊y⌋ else ⌊y⌋ + 1

/-- Exponent of the unit in the last place of the float64 format at `y`: 52
below the binary exponent of `y`, and `-1074` throughout the subnormal range. -/
def ulpExp (y : ℚ) : ℤ := max (Int.log 2 |y|) (-1022) - 52

/-- The float64 result of an operation whose exact result is `y`: `y` rounded
to the nearest multiple of its unit in the last place, ties to even; `none`
when the rounded magnitude reaches `2 ^ 1024`, where float64 gives an infinity.
Negative zero is not told apart from zero. -/
def float64 (y : ℚ) : Option ℚ :=
  let r := (roundHalfEven (y / 2 ^ ulpExp y) : ℚ) * 2 ^ ulpExp y
  if |r| < 2 ^ 1024 then some r else none

/-- The expression `math.Round(x*100) / 100` on float64: the product is rounded
to float64, `math.Round` is exact, the quotient is rounded to float64. An
infinite product stays infinite through `math.Round` and the division. -/
def cents (x : ℚ) : Option ℚ :=
  (float64 (x * 100)).bind fun p => float64 (Round p / 100)

/-- The numeric fields of `cpuPower`, `none` standing for a float64 that is not
finite; `Time` and `HostAddress` come from the clock and the network and are
left out. -/
structure cpuPower where
  CPUAveragePowerUsage : Option ℚ
  CPUCurrentPowerUsage : Option ℚ
  CPUMinPowerUsage : Option ℚ
  CPUMaxPowerUsage : Option ℚ
  deriving DecidableEq, Repr

/-- The numeric fields of `memPower`, `none` standing for a float64 that is not
finite. -/
structure memPower where
  MemoryAveragePowerUsage : Option ℚ
  MemoryCurrentPowerUsage : Option ℚ
  MemoryMinPowerUsage : Option ℚ
  MemoryMaxPowerUsage : Option ℚ
  deriving DecidableEq, Repr

/-- The value `v` is `x` rounded to two decimal places: `100 * v` is an integer
and `v` is within half a hundredth of `x`. -/
def RoundedToCents (v x : ℚ) : Prop :=
  (∃ n : ℤ, 100 * v = (n : ℚ)) ∧ |v - x| ≤ 5 / 1000

/-- The reported field `r` is a finite float64 `v`, the float64 nearest to a
whole number `n` of hundredths, within half a hundredth of `x` up to the
rounding of the two float64 operations. -/
def ReportsCents (r : Option ℚ) (x : ℚ) : Prop :=
  ∃ (v : ℚ) (n : ℤ), r = some v ∧ float64 ((n : ℚ) / 100) = some v ∧
    |v - x| ≤ 5 / 1000 + (|x| + 1) / 2 ^ 51

/-- Every stored figure is at most `2 ^ 1000` in magnitude, far from the
overflow of float64. -/
def Bounded (g : Globals) : Prop :=
  |g.cpuCurPwr| ≤ 2 ^ 1000 ∧ |g.cpuAvgPwr| ≤ 2 ^ 1000 ∧ |g.cpuMinPwr| ≤ 2 ^ 1000 ∧
  |g.cpuMaxPwr| ≤ 2 ^ 1000 ∧ |g.memCurPwr| ≤ 2 ^ 1000 ∧ |g.memAvgPwr| ≤ 2 ^ 1000 ∧
  |g.memMinPwr| ≤ 2 ^ 1000 ∧ |g.memMaxPwr| ≤ 2 ^ 1000

/-- Lines 169-172 of `GetCPUPwr`. -/
def GetCPUPwr (g : Globals) : cpuPower :=
  { CPUCurrentPowerUsage := cents g.cpuCurPwr,
    CPUAveragePowerUsage := cents g.cpuAvgPwr,
    CPUMinPowerUsage := cents g.cpuMinPwr,
    CPUMaxPowerUsage := cents g.cpuMaxPwr }

/-- Lines 153-156 of `GetMemPwr`. -/
def GetMemPwr (g : Globals) : memPower :=
  { MemoryCurrentPowerUsage := cents g.memCurPwr,
    MemoryAveragePowerUsage := cents g.memAvgPwr,
    MemoryMinPowerUsage := cents g.memMinPwr,
    MemoryMaxPowerUsage := cents g.memMaxPwr }

/-! ## The control loop of `Broker.Listen` (system-pwr.go) -/

/-- Identity of a client channel (a `chan []byte` made by `ServeHTTP`). -/
abbrev Chan := Nat

/-- Payload of a message (`[]byte`). -/
abbrev Msg := List Nat

/-- The two run-time panics the control loop can raise. -/
inductive Panic where
  | sendOnClosedChannel
  | closeOfClosedChannel
  deriving DecidableEq, Repr

/-- The registry `b.clients` (the key set of the map) together with the state
of every client channel: whether it has been closed, and the messages that have
passed through it, oldest first. The client channels are unbuffered and
`ServeHTTP` reads from its channel until it is closed, so a completed send is a
message received by that client. -/
structure Broker where
  clients : Finset Chan
  closed : Chan → Bool
  received : Chan → List Msg

/-- The broker of `main`: an empty map; no channel has been closed or used. -/
def Broker.start : Broker :=
  { clients := ∅, closed := fun _ => false, received := fun _ => [] }

/-- Go `s <- msg`: panics on a closed channel, otherwise the message goes
through. -/
def send (b : Broker) (s : Chan) (msg : Msg) : Except Panic Broker :=
  if b.closed s then .error Panic.sendOnClosedChannel
  else .ok { b with received := Function.update b.received s (b.received s ++ [msg]) }

/-- Go `close(s)`: panics on a channel that is already closed. -/
def closeChan (b : Broker) (s : Chan) : Except Panic Broker :=
  if b.closed s then .error Panic.closeOfClosedChannel
  else .ok { b with closed := Function.update b.closed s true }

/-- Lines 122-124: `for s := range b.clients { s <- msg }`. Go leaves the
iteration order of a map unspecified; the keys are visited here in increasing
order. -/
def fanOut (b : Broker) (msg : Msg) : Except Panic Broker :=
  (b.clients.sort (· ≤ ·)).foldlM (fun acc s => send acc s msg) b

/-- What the `select` of line 99 can receive. -/
inductive Cmd where
  | newClients (s : Chan)
  | defunctClients (s : Chan)
  | tempData (msg : Msg)
  deriving DecidableEq, Repr

/-- One iteration of the loop of `Listen` (lines 99-126). -/
def handle (b : Broker) : Cmd → Except Panic Broker
  | Cmd.newClients s => .ok { b with clients := insert s b.clients }
  | Cmd.defunctClients s => closeChan { b with clients := b.clients.erase s } s
  | Cmd.tempData msg => fanOut b msg

/-- The loop of `Listen` on the commands it receives, in the order the `select`
takes them; a panic ends the loop. -/
def Listen (b : Broker) (cmds : List Cmd) : Except Panic Broker :=
  cmds.foldlM handle b

/-- The events published while channel `c` is registered, in publish order;
`reg` tells whether `c` is registered before the first command. Follows the
wording of the specification, not the code. -/
def publishedWhileRegistered (c : Chan) : Bool → List Cmd → List Msg
  | _, [] => []
  | reg, Cmd.newClients s :: rest => publishedWhileRegistered c (reg || s == c) rest
  | reg, Cmd.defunctClients s :: rest => publishedWhileRegistered c (reg && s != c) rest
  | reg, Cmd.tempData m :: rest =>
    (if reg then [m] else []) ++ publishedWhileRegistered c reg rest

/-- The command sequences `ServeHTTP` can produce: every request makes a new
channel, pushes it once into `newClients` (line 149) and, once the connection
closes, at most once into `defunctClients` (line 157). `made` holds the channels
already registered, `gone` those already pushed to `defunctClients`. -/
def fromServeHTTP (made gone : List Chan) : List Cmd → Bool
  | [] => true
  | Cmd.newClients s :: rest => decide (s ∉ made) && fromServeHTTP (s :: made) gone rest
  | Cmd.defunctClients s :: rest =>
    decide (s ∈ made) && decide (s ∉ gone) && fromServeHTTP made (s :: gone) rest
  | Cmd.tempData _ :: rest => fromServeHTTP made gone rest

end PowerEmu

namespace PowerEmu

/-! ## Closed form of one tick -/

theorem seedMin_eq (g : Globals) :
    seedMin g =
      { g with cpuMinPwr := if g.counter = 0 then g.cpuCurPwr else g.cpuMinPwr,
               memMinPwr := if g.counter = 0 then g.memCurPwr else g.memMinPwr } := by
  unfold seedMin
  by_cases h : g.counter = 0 <;> simp [h]

theorem clampCpu_eq (g : Globals) :
    clampCpu g =
      { g with cpuMinPwr := min g.cpuMinPwr g.cpuCurPwr,
               cpuMaxPwr := max g.cpuMaxPwr g.cpuCurPwr } := by
  obtain ⟨a1, a2, a3, a4, a5, a6, a7, a8, a9, a10, a11⟩ := g
  simp only [clampCpu, gt_iff_lt]
  split_ifs with h1 h2 h2 <;> simp only [Globals.mk.injEq, true_and, and_true] <;>
    constructor <;> first | (symm; apply min_eq_left; linarith) | (symm; apply min_eq_right; linarith) | (symm; apply max_eq_left; linarith) | (symm; apply max_eq_right; linarith)

theorem clampMem_eq (g : Globals) :
    clampMem g =
      { g with memMinPwr := min g.memMinPwr g.memCurPwr,
               memMaxPwr := max g.memMaxPwr g.memCurPwr } := by
  obtain ⟨a1, a2, a3, a4, a5, a6, a7, a8, a9, a10, a11⟩ := g
  simp only [clampMem, gt_iff_lt]
  split_ifs with h1 h2 h2 <;> simp only [Globals.mk.injEq, true_and, and_true] <;>
    constructor <;> first | (symm; apply min_eq_left; linarith) | (symm; apply min_eq_right; linarith) | (symm; apply max_eq_left; linarith) | (symm; apply max_eq_right; linarith)

theorem tick_eq (g : Globals) (x : ℚ × ℚ) :
    tick g x =
      { cpuAvgPwr := if g.counter + 1 = 60 then (g.totalCpuPwr + x.1) / 60 else g.cpuAvgPwr,
        cpuCurPwr := x.1,
        cpuMinPwr := if g.counter = 0 then x.1 else min g.cpuMinPwr x.1,
        cpuMaxPwr := max g.cpuMaxPwr x.1,
        memAvgPwr := if g.counter + 1 = 60 then (g.totalMemPwr + x.2) / 60 else g.memAvgPwr,
        memCurPwr := x.2,
        memMinPwr := if g.counter = 0 then x.2 else min g.memMinPwr x.2,
        memMaxPwr := max g.memMaxPwr x.2,
        totalMemPwr := if g.counter + 1 = 60 then 0 else g.totalMemPwr + x.2,
        totalCpuPwr := if g.counter + 1 = 60 then 0 else g.totalCpuPwr + x.1,
        counter := if g.counter + 1 = 60 then 0 else g.counter + 1 } := by
  unfold tick afterGetPower
  rw [seedMin_eq, clampCpu_eq, clampMem_eq]
  unfold closeWindow accumulate storeCur
  by_cases h0 : g.counter = 0 <;> by_cases h60 : g.counter + 1 = 60 <;> simp [h0, h60]

theorem tick_cpuCurPwr (g : Globals) (x : ℚ × ℚ) : (tick g x).cpuCurPwr = x.1 := by
  rw [tick_eq]

theorem tick_memCurPwr (g : Globals) (x : ℚ × ℚ) : (tick g x).memCurPwr = x.2 := by
  rw [tick_eq]

theorem tick_counter (g : Globals) (x : ℚ × ℚ) :
    (tick g x).counter = if g.counter + 1 = 60 then 0 else g.counter + 1 := by
  rw [tick_eq]

theorem tick_totalCpuPwr (g : Globals) (x : ℚ × ℚ) :
    (tick g x).totalCpuPwr = if g.counter + 1 = 60 then 0 else g.totalCpuPwr + x.1 := by
  rw [tick_eq]

theorem tick_totalMemPwr (g : Globals) (x : ℚ × ℚ) :
    (tick g x).totalMemPwr = if g.counter + 1 = 60 then 0 else g.totalMemPwr + x.2 := by
  rw [tick_eq]

theorem tick_cpuAvgPwr (g : Globals) (x : ℚ × ℚ) :
    (tick g x).cpuAvgPwr =
      if g.counter + 1 = 60 then (g.totalCpuPwr + x.1) / 60 else g.cpuAvgPwr := by
  rw [tick_eq]

theorem tick_memAvgPwr (g : Globals) (x : ℚ × ℚ) :
    (tick g x).memAvgPwr =
      if g.counter + 1 = 60 then (g.totalMemPwr + x.2) / 60 else g.memAvgPwr := by
  rw [tick_eq]

theorem tick_cpuMinPwr (g : Globals) (x : ℚ × ℚ) :
    (tick g x).cpuMinPwr = if g.counter = 0 then x.1 else min g.cpuMinPwr x.1 := by
  rw [tick_eq]

theorem tick_memMinPwr (g : Globals) (x : ℚ × ℚ) :
    (tick g x).memMinPwr = if g.counter = 0 then x.2 else min g.memMinPwr x.2 := by
  rw [tick_eq]

theorem tick_cpuMaxPwr (g : Globals) (x : ℚ × ℚ) :
    (tick g x).cpuMaxPwr = max g.cpuMaxPwr x.1 := by
  rw [tick_eq]

theorem tick_memMaxPwr (g : Globals) (x : ℚ × ℚ) :
    (tick g x).memMaxPwr = max g.memMaxPwr x.2 := by
  rw [tick_eq]

theorem ticks_nil (g : Globals) : ticks g [] = g := rfl

theorem ticks_cons (g : Globals) (x : ℚ × ℚ) (xs : List (ℚ × ℚ)) :
    ticks g (x :: xs) = ticks (tick g x) xs := rfl

theorem ticks_append (g : Globals) (xs ys : List (ℚ × ℚ)) :
    ticks g (xs ++ ys) = ticks (ticks g xs) ys := by
  simp [ticks, List.foldl_append]

theorem ticks_concat (g : Globals) (xs : List (ℚ × ℚ)) (x : ℚ × ℚ) :
    ticks g (xs ++ [x]) = tick (ticks g xs) x := by
  simp [ticks, List.foldl_append]

/-! ## Inside one window -/

/-- As long as the window does not fill up, the counter and the totals grow
and the averages are not touched. -/
theorem ticks_partial (xs : List (ℚ × ℚ)) :
    ∀ g : Globals, g.counter + xs.length < 60 →
      (ticks g xs).counter = g.counter + xs.length ∧
      (ticks g xs).totalCpuPwr = g.totalCpuPwr + (xs.map Prod.fst).sum ∧
      (ticks g xs).totalMemPwr = g.totalMemPwr + (xs.map Prod.snd).sum ∧
      (ticks g xs).cpuAvgPwr = g.cpuAvgPwr ∧
      (ticks g xs).memAvgPwr = g.memAvgPwr := by
  induction xs with
  | nil => intro g _; simp [ticks_nil]
  | cons x xs ih =>
    intro g hlt
    simp only [List.length_cons] at hlt
    have h60 : ¬ (g.counter + 1 = 60) := by omega
    have hc : (tick g x).counter = g.counter + 1 := by rw [tick_counter, if_neg h60]
    obtain ⟨h1, h2, h3, h4, h5⟩ := ih (tick g x) (by rw [hc]; omega)
    rw [ticks_cons]
    refine ⟨?_, ?_, ?_, ?_, ?_⟩
    · rw [h1, hc, List.length_cons]; omega
    · rw [h2, tick_totalCpuPwr, if_neg h60, List.map_cons, List.sum_cons]; ring
    · rw [h3, tick_totalMemPwr, if_neg h60, List.map_cons, List.sum_cons]; ring
    · rw [h4, tick_cpuAvgPwr, if_neg h60]
    · rw [h5, tick_memAvgPwr, if_neg h60]

/-- The counter after any run is the number of ticks modulo 60. -/
theorem ticks_counter (xs : List (ℚ × ℚ)) :
    ∀ g : Globals, g.counter < 60 → (ticks g xs).counter = (g.counter + xs.length) % 60 := by
  induction xs with
  | nil => intro g h; simp [ticks_nil, Nat.mod_eq_of_lt h]
  | cons x xs ih =>
    intro g h
    have hc := tick_counter g x
    rw [ticks_cons, ih (tick g x) (by rw [hc]; split_ifs <;> omega), hc, List.length_cons]
    split_ifs with h60
    · have : g.counter + (xs.length + 1) = xs.length + 60 := by omega
      rw [this]; simp
    · congr 1; omega

/-- Minimum of a seed and a list, the way the loop folds it. -/
theorem foldl_min_spec (l : List ℚ) :
    ∀ a : ℚ, l.foldl min a ∈ a :: l ∧ ∀ b ∈ a :: l, l.foldl min a ≤ b := by
  induction l with
  | nil => intro a; simp
  | cons c l ih =>
    intro a
    obtain ⟨hm, hle⟩ := ih (min a c)
    simp only [List.foldl_cons]
    constructor
    · rcases List.mem_cons.mp hm with h | h
      · rw [h]
        rcases min_choice a c with h2 | h2 <;> rw [h2] <;> simp
      · exact List.mem_cons_of_mem _ (List.mem_cons_of_mem _ h)
    · intro b hb
      rcases List.mem_cons.mp hb with h | h
      · rw [h]; exact le_trans (hle _ (List.mem_cons_self _ _)) (min_le_left _ _)
      · rcases List.mem_cons.mp h with h2 | h2
        · rw [h2]; exact le_trans (hle _ (List.mem_cons_self _ _)) (min_le_right _ _)
        · exact hle _ (List.mem_cons_of_mem _ h2)

/-- Maximum of a seed and a list, the way the loop folds it. -/
theorem foldl_max_spec (l : List ℚ) :
    ∀ a : ℚ, l.foldl max a ∈ a :: l ∧ ∀ b ∈ a :: l, b ≤ l.foldl max a := by
  induction l with
  | nil => intro a; simp
  | cons c l ih =>
    intro a
    obtain ⟨hm, hle⟩ := ih (max a c)
    simp only [List.foldl_cons]
    constructor
    · rcases List.mem_cons.mp hm with h | h
      · rw [h]
        rcases max_choice a c with h2 | h2 <;> rw [h2] <;> simp
      · exact List.mem_cons_of_mem _ (List.mem_cons_of_mem _ h)
    · intro b hb
      rcases List.mem_cons.mp hb with h | h
      · rw [h]; exact le_trans (le_max_left _ _) (hle _ (List.mem_cons_self _ _))
      · rcases List.mem_cons.mp h with h2 | h2
        · rw [h2]; exact le_trans (le_max_right _ _) (hle _ (List.mem_cons_self _ _))
        · exact hle _ (List.mem_cons_of_mem _ h2)

/-- After the first sample of a window, the minima fold over the samples that
follow, as long as they stay inside the window. -/
theorem ticks_min_inside (xs : List (ℚ × ℚ)) :
    ∀ g : Globals, g.counter ≠ 0 → g.counter + xs.length ≤ 60 →
      (ticks g xs).cpuMinPwr = (xs.map Prod.fst).foldl min g.cpuMinPwr ∧
      (ticks g xs).memMinPwr = (xs.map Prod.snd).foldl min g.memMinPwr := by
  induction xs with
  | nil => intro g _ _; simp [ticks_nil]
  | cons x xs ih =>
    intro g h0 hle
    simp only [List.length_cons] at hle
    rw [ticks_cons, List.map_cons, List.map_cons, List.foldl_cons, List.foldl_cons]
    cases xs with
    | nil =>
      simp only [ticks_nil, List.map_nil, List.foldl_nil]
      rw [tick_cpuMinPwr, tick_memMinPwr, if_neg h0, if_neg h0]
      exact ⟨rfl, rfl⟩
    | cons y ys =>
      simp only [List.length_cons] at hle
      have h60 : ¬ (g.counter + 1 = 60) := by omega
      have hc : (tick g x).counter = g.counter + 1 := by rw [tick_counter, if_neg h60]
      obtain ⟨h1, h2⟩ := ih (tick g x) (by rw [hc]; omega)
        (by rw [hc]; simp only [List.length_cons]; omega)
      rw [h1, h2, tick_cpuMinPwr, tick_memMinPwr, if_neg h0, if_neg h0]
      exact ⟨rfl, rfl⟩

/-- The maxima fold over every sample ever seen: no tick reseeds them. -/
theorem ticks_max (xs : List (ℚ × ℚ)) :
    ∀ g : Globals,
      (ticks g xs).cpuMaxPwr = (xs.map Prod.fst).foldl max g.cpuMaxPwr ∧
      (ticks g xs).memMaxPwr = (xs.map Prod.snd).foldl max g.memMaxPwr := by
  induction xs with
  | nil => intro g; simp [ticks_nil]
  | cons x xs ih =>
    intro g
    obtain ⟨h1, h2⟩ := ih (tick g x)
    rw [ticks_cons, h1, h2, tick_cpuMaxPwr, tick_memMaxPwr]
    exact ⟨rfl, rfl⟩

/-- Folding `max` over one or more copies of a value not below the seed. -/
theorem foldl_max_replicate (n : Nat) (a b : ℚ) (h : a ≤ b) :
    (List.replicate (n + 1) b).foldl max a = b := by
  induction n generalizing a with
  | zero => simp [List.replicate, max_eq_right h]
  | succ n ih =>
    rw [List.replicate_succ, List.foldl_cons, max_eq_right h]
    exact ih b (le_refl b)

/-- A window started at `counter = 0`: the minima after `x :: xs`. -/
theorem ticks_min_window (g : Globals) (x : ℚ × ℚ) (xs : List (ℚ × ℚ))
    (h0 : g.counter = 0) (hlen : (x :: xs).length ≤ 60) :
    (ticks g (x :: xs)).cpuMinPwr = (xs.map Prod.fst).foldl min x.1 ∧
    (ticks g (x :: xs)).memMinPwr = (xs.map Prod.snd).foldl min x.2 := by
  simp only [List.length_cons] at hlen
  have hc : (tick g x).counter = 1 := by rw [tick_counter, h0]; simp
  obtain ⟨h1, h2⟩ := ticks_min_inside xs (tick g x) (by rw [hc]; omega) (by rw [hc]; omega)
  rw [ticks_cons, h1, h2, tick_cpuMinPwr, tick_memMinPwr, if_pos h0, if_pos h0]
  exact ⟨rfl, rfl⟩

/-- The current values after a non-empty run are the last sample. -/
theorem ticks_cur (g : Globals) (xs : List (ℚ × ℚ)) (h : xs ≠ []) :
    (ticks g xs).cpuCurPwr = (xs.getLast h).1 ∧ (ticks g xs).memCurPwr = (xs.getLast h).2 := by
  have hx := List.dropLast_append_getLast h
  constructor
  · conv_lhs => rw [← hx]
    rw [ticks_concat, tick_cpuCurPwr]
  · conv_lhs => rw [← hx]
    rw [ticks_concat, tick_memCurPwr]

/-- After any tick the current value lies between the stored extrema. -/
theorem tick_ordered (g : Globals) (x : ℚ × ℚ) :
    (tick g x).cpuMinPwr ≤ (tick g x).cpuCurPwr ∧ (tick g x).cpuCurPwr ≤ (tick g x).cpuMaxPwr ∧
    (tick g x).memMinPwr ≤ (tick g x).memCurPwr ∧ (tick g x).memCurPwr ≤ (tick g x).memMaxPwr := by
  rw [tick_cpuMinPwr, tick_cpuCurPwr, tick_cpuMaxPwr, tick_memMinPwr, tick_memCurPwr,
    tick_memMaxPwr]
  refine ⟨?_, le_max_right _ _, ?_, le_max_right _ _⟩
  · split_ifs
    · exact le_refl _
    · exact min_le_right _ _
  · split_ifs
    · exact le_refl _
    · exact min_le_right _ _

/-! ## The claims about the sampling loop -/

/-- C1: from a window boundary (`counter`, `totalCpuPwr`, `totalMemPwr` all zero)
and for any 60 samples, after the 60th tick `cpuAvgPwr` is the sum of the CPU
samples divided by 60, `memAvgPwr` the sum of the memory samples divided by 60,
the counter and both totals are zero again; after each of the first 59 ticks
(and before the first) both averages still have the value they had at the
boundary. -/
theorem window_average (g : Globals) (xs : List (ℚ × ℚ))
    (hc : g.counter = 0) (htc : g.totalCpuPwr = 0) (htm : g.totalMemPwr = 0)
    (hlen : xs.length = 60) :
    (ticks g xs).cpuAvgPwr = (xs.map Prod.fst).sum / 60 ∧
    (ticks g xs).memAvgPwr = (xs.map Prod.snd).sum / 60 ∧
    (ticks g xs).counter = 0 ∧
    (ticks g xs).totalCpuPwr = 0 ∧
    (ticks g xs).totalMemPwr = 0 ∧
    ∀ k, k < 60 →
      (ticks g (xs.take k)).cpuAvgPwr = g.cpuAvgPwr ∧
      (ticks g (xs.take k)).memAvgPwr = g.memAvgPwr := by
  have hpart : ∀ k, k < 60 →
      (ticks g (xs.take k)).counter = k ∧
      (ticks g (xs.take k)).totalCpuPwr = ((xs.take k).map Prod.fst).sum ∧
      (ticks g (xs.take k)).totalMemPwr = ((xs.take k).map Prod.snd).sum ∧
      (ticks g (xs.take k)).cpuAvgPwr = g.cpuAvgPwr ∧
      (ticks g (xs.take k)).memAvgPwr = g.memAvgPwr := by
    intro k hk
    have hl : (xs.take k).length = k := by rw [List.length_take, hlen]; omega
    obtain ⟨h1, h2, h3, h4, h5⟩ := ticks_partial (xs.take k) g (by rw [hc, hl]; omega)
    refine ⟨by rw [h1, hc, hl]; omega, by rw [h2, htc, zero_add], by rw [h3, htm, zero_add],
      h4, h5⟩
  obtain ⟨y, hy⟩ : ∃ y, xs.drop 59 = [y] := by
    have hl : (xs.drop 59).length = 1 := by rw [List.length_drop, hlen]
    match hd : xs.drop 59, hl with
    | [y], _ => exact ⟨y, rfl⟩
  have hsplit : xs = xs.take 59 ++ [y] := by rw [← hy, List.take_append_drop]
  obtain ⟨p1, p2, p3, _, _⟩ := hpart 59 (by omega)
  have h60 : (ticks g (xs.take 59)).counter + 1 = 60 := by rw [p1]
  have hfull : ticks g xs = tick (ticks g (xs.take 59)) y := by
    conv_lhs => rw [hsplit]
    rw [ticks_concat]
  have hsumc : (xs.map Prod.fst).sum = ((xs.take 59).map Prod.fst).sum + y.1 := by
    conv_lhs => rw [hsplit]
    simp
  have hsumm : (xs.map Prod.snd).sum = ((xs.take 59).map Prod.snd).sum + y.2 := by
    conv_lhs => rw [hsplit]
    simp
  refine ⟨?_, ?_, ?_, ?_, ?_, fun k hk => ⟨(hpart k hk).2.2.2.1, (hpart k hk).2.2.2.2⟩⟩
  · rw [hfull, tick_cpuAvgPwr, if_pos h60, p2, hsumc]
  · rw [hfull, tick_memAvgPwr, if_pos h60, p3, hsumm]
  · rw [hfull, tick_counter, if_pos h60]
  · rw [hfull, tick_totalCpuPwr, if_pos h60]
  · rw [hfull, tick_totalMemPwr, if_pos h60]

/-- Witness for C1: the window of Scenario A, samples alternating 8 and 14,
started from the state set by `init`. -/
theorem window_average_witness :
    (ticks init (List.replicate 30 [((8 : ℚ), (3 : ℚ)), (14, 5)]).flatten).cpuAvgPwr =
      (((List.replicate 30 [((8 : ℚ), (3 : ℚ)), (14, 5)]).flatten).map Prod.fst).sum / 60 :=
  (window_average init (List.replicate 30 [((8 : ℚ), (3 : ℚ)), (14, 5)]).flatten
    rfl rfl rfl (by decide)).1

/-- C2: let `g` be a state at a window boundary (`counter = 0`; the state set by
`init` is one), let `pre` be any number of complete windows (a multiple of 60
samples) and `xs` the first `k` samples of the window that follows,
`1 ≤ k ≤ 60`. After the last tick `cpuCurPwr` is the CPU part of the last sample
of `xs` and `cpuMinPwr` is the minimum of the CPU parts of `xs` alone; likewise
`memCurPwr` and `memMinPwr` for the memory parts. -/
theorem window_min_current (g : Globals) (pre xs : List (ℚ × ℚ))
    (hg : g.counter = 0) (hpre : pre.length % 60 = 0) (hne : xs ≠ [])
    (hlen : xs.length ≤ 60) :
    (ticks g (pre ++ xs)).cpuCurPwr = (xs.getLast hne).1 ∧
    (ticks g (pre ++ xs)).memCurPwr = (xs.getLast hne).2 ∧
    (xs.map Prod.fst).minimum = ((ticks g (pre ++ xs)).cpuMinPwr : WithTop ℚ) ∧
    (xs.map Prod.snd).minimum = ((ticks g (pre ++ xs)).memMinPwr : WithTop ℚ) := by
  rw [ticks_append]
  have hb : (ticks g pre).counter = 0 := by
    rw [ticks_counter pre g (by omega), hg, zero_add, hpre]
  obtain ⟨c1, c2⟩ := ticks_cur (ticks g pre) xs hne
  refine ⟨c1, c2, ?_, ?_⟩
  · match xs, hne, hlen with
    | x :: ys, _, hl =>
      rw [(ticks_min_window (ticks g pre) x ys hb hl).1, List.map_cons,
        List.minimum_eq_coe_iff]
      exact foldl_min_spec (ys.map Prod.fst) x.1
  · match xs, hne, hlen with
    | x :: ys, _, hl =>
      rw [(ticks_min_window (ticks g pre) x ys hb hl).2, List.map_cons,
        List.minimum_eq_coe_iff]
      exact foldl_min_spec (ys.map Prod.snd) x.2

/-- Witness for C2: the second window after process start, three samples in. -/
theorem window_min_current_witness :
    ((([((9 : ℚ), (4 : ℚ)), (7, 6), (8, 5)] : List (ℚ × ℚ))).map Prod.fst).minimum =
      ((ticks init (List.replicate 60 ((14 : ℚ), (3 : ℚ)) ++ [(9, 4), (7, 6), (8, 5)])).cpuMinPwr :
        WithTop ℚ) :=
  (window_min_current init (List.replicate 60 ((14 : ℚ), (3 : ℚ))) [(9, 4), (7, 6), (8, 5)]
    rfl (by decide) (by decide) (by decide)).2.2.1

/-- C3, the code at a failing input: 60 ticks of `(14, 3)` from the state set by
`init` complete the first window; the next tick delivers `(8, 2)`, the first
sample of the second window. The minima and current values are the new sample,
the maxima are still those of the first window. -/
theorem max_survives_window_reset :
    (ticks init (List.replicate 60 ((14 : ℚ), (3 : ℚ)))).counter = 0 ∧
    (ticks init (List.replicate 60 ((14 : ℚ), (3 : ℚ)) ++ [(8, 2)])).cpuCurPwr = 8 ∧
    (ticks init (List.replicate 60 ((14 : ℚ), (3 : ℚ)) ++ [(8, 2)])).cpuMinPwr = 8 ∧
    (ticks init (List.replicate 60 ((14 : ℚ), (3 : ℚ)) ++ [(8, 2)])).cpuMaxPwr = 14 ∧
    (ticks init (List.replicate 60 ((14 : ℚ), (3 : ℚ)) ++ [(8, 2)])).memCurPwr = 2 ∧
    (ticks init (List.replicate 60 ((14 : ℚ), (3 : ℚ)) ++ [(8, 2)])).memMinPwr = 2 ∧
    (ticks init (List.replicate 60 ((14 : ℚ), (3 : ℚ)) ++ [(8, 2)])).memMaxPwr = 3 := by
  have hc : (ticks init (List.replicate 60 ((14 : ℚ), (3 : ℚ)))).counter = 0 := by
    rw [ticks_counter _ _ (by decide)]; rfl
  have hmc : (ticks init (List.replicate 60 ((14 : ℚ), (3 : ℚ)))).cpuMaxPwr = 14 := by
    rw [(ticks_max _ _).1]; exact foldl_max_replicate 59 0 14 (by decide)
  have hmm : (ticks init (List.replicate 60 ((14 : ℚ), (3 : ℚ)))).memMaxPwr = 3 := by
    rw [(ticks_max _ _).2]; exact foldl_max_replicate 59 0 3 (by decide)
  rw [ticks_concat, tick_cpuCurPwr, tick_cpuMinPwr, tick_cpuMaxPwr, tick_memCurPwr,
    tick_memMinPwr, tick_memMaxPwr, if_pos hc, if_pos hc, hmc, hmm]
  refine ⟨hc, rfl, rfl, by decide, rfl, rfl, by decide⟩

/-- C4: starting from the state set by `init`, after any sequence of ticks (so
after every tick of every run) `cpuMinPwr ≤ cpuCurPwr ≤ cpuMaxPwr` and
`memMinPwr ≤ memCurPwr ≤ memMaxPwr`. -/
theorem ordering_invariant (xs : List (ℚ × ℚ)) :
    (ticks init xs).cpuMinPwr ≤ (ticks init xs).cpuCurPwr ∧
    (ticks init xs).cpuCurPwr ≤ (ticks init xs).cpuMaxPwr ∧
    (ticks init xs).memMinPwr ≤ (ticks init xs).memCurPwr ∧
    (ticks init xs).memCurPwr ≤ (ticks init xs).memMaxPwr := by
  rcases List.eq_nil_or_concat xs with h | ⟨ys, y, h⟩
  · subst h
    simp [ticks_nil, init]
  · subst h
    rw [List.concat_eq_append, ticks_concat]
    exact tick_ordered _ _

/-! ## The snapshot handlers -/

/-- The function `Round` returns an integer within one half of its argument. -/
theorem Round_spec (y : ℚ) : (∃ n : ℤ, Round y = (n : ℚ)) ∧ |Round y - y| ≤ 1 / 2 := by
  unfold Round
  split_ifs with h
  · refine ⟨⟨_, rfl⟩, ?_⟩
    have h1 := Int.floor_le (y + 1 / 2)
    have h2 := Int.lt_floor_add_one (y + 1 / 2)
    rw [abs_le]
    constructor <;> linarith
  · refine ⟨⟨-⌊-y + 1 / 2⌋, by push_cast; rfl⟩, ?_⟩
    have h1 := Int.floor_le (-y + 1 / 2)
    have h2 := Int.lt_floor_add_one (-y + 1 / 2)
    rw [abs_le]
    constructor <;> linarith

/-- Rounding to the nearest integer moves a number by at most one half. -/
theorem roundHalfEven_err (z : ℚ) : |((roundHalfEven z : ℤ) : ℚ) - z| ≤ 1 / 2 := by
  have h1 := Int.floor_le z
  have h2 := Int.lt_floor_add_one z
  unfold roundHalfEven
  rw [abs_le]
  split_ifs with a b c
  · constructor <;> linarith
  · push_cast; constructor <;> linarith
  · constructor <;> linarith
  · push_cast; constructor <;> linarith

/-- Half a unit in the last place is at most the relative error `2 ^ -53` of
float64, or the absolute error `2 ^ -1075` of its subnormal range. -/
theorem ulp_half_le (y : ℚ) (hy : y ≠ 0) :
    (2 : ℚ) ^ ulpExp y / 2 ≤ |y| / 2 ^ 53 + 1 / 2 ^ 1075 := by
  have hpos : 0 < |y| := abs_pos.mpr hy
  unfold ulpExp
  rcases le_total (Int.log 2 |y|) (-1022) with h | h
  · rw [max_eq_right h]
    have : (2 : ℚ) ^ ((-1022 : ℤ) - 52) / 2 = 1 / 2 ^ 1075 := by
      norm_num [zpow_neg]
    rw [this]
    have : 0 ≤ |y| / 2 ^ 53 := by positivity
    linarith
  · rw [max_eq_left h]
    have hl : (2 : ℚ) ^ Int.log 2 |y| ≤ |y| := Int.zpow_log_le_self (by norm_num) hpos
    have : (2 : ℚ) ^ (Int.log 2 |y| - 52) / 2 = (2 : ℚ) ^ Int.log 2 |y| / 2 ^ 53 := by
      rw [zpow_sub₀ (by norm_num : (2 : ℚ) ≠ 0)]
      norm_num
      ring
    rw [this]
    have h3 : (2 : ℚ) ^ Int.log 2 |y| / 2 ^ 53 ≤ |y| / 2 ^ 53 :=
      div_le_div_of_nonneg_right hl (by positivity)
    have : (0 : ℚ) ≤ 1 / 2 ^ 1075 := by positivity
    linarith

/-- Error of one float64 operation with a finite result. -/
theorem float64_err (y r : ℚ) (h : float64 y = some r) :
    |r - y| ≤ |y| / 2 ^ 53 + 1 / 2 ^ 1075 := by
  unfold float64 at h
  simp only at h
  split_ifs at h with hlt
  have hr := (Option.some.inj h).symm
  by_cases hy : y = 0
  · subst hy
    have : r = 0 := by
      rw [hr]
      simp [roundHalfEven]
    rw [this]
    norm_num
  · have hU : (0 : ℚ) < 2 ^ ulpExp y := by positivity
    have hm := roundHalfEven_err (y / 2 ^ ulpExp y)
    have hhalf := ulp_half_le y hy
    have e1 : r - y = (((roundHalfEven (y / 2 ^ ulpExp y) : ℤ) : ℚ) - y / 2 ^ ulpExp y) *
        2 ^ ulpExp y := by
      rw [hr]
      field_simp
    rw [e1, abs_mul, abs_of_pos hU]
    calc |((roundHalfEven (y / 2 ^ ulpExp y) : ℤ) : ℚ) - y / 2 ^ ulpExp y| * 2 ^ ulpExp y
        ≤ 1 / 2 * 2 ^ ulpExp y := mul_le_mul_of_nonneg_right hm (le_of_lt hU)
      _ = 2 ^ ulpExp y / 2 := by ring
      _ ≤ _ := hhalf

/-- Below `2 ^ 1010` a float64 operation does not overflow. -/
theorem float64_total (y : ℚ) (hy : |y| ≤ 2 ^ 1010) : ∃ r, float64 y = some r := by
  by_cases h0 : y = 0
  · subst h0
    exact ⟨0, by simp [float64, roundHalfEven]⟩
  · have hU : (0 : ℚ) < 2 ^ ulpExp y := by positivity
    have hm := roundHalfEven_err (y / 2 ^ ulpExp y)
    have hhalf := ulp_half_le y h0
    have e1 : ((roundHalfEven (y / 2 ^ ulpExp y) : ℤ) : ℚ) * 2 ^ ulpExp y - y =
        (((roundHalfEven (y / 2 ^ ulpExp y) : ℤ) : ℚ) - y / 2 ^ ulpExp y) * 2 ^ ulpExp y := by
      field_simp
    have e2 : |((roundHalfEven (y / 2 ^ ulpExp y) : ℤ) : ℚ) * 2 ^ ulpExp y - y| ≤
        |y| / 2 ^ 53 + 1 / 2 ^ 1075 := by
      rw [e1, abs_mul, abs_of_pos hU]
      calc |((roundHalfEven (y / 2 ^ ulpExp y) : ℤ) : ℚ) - y / 2 ^ ulpExp y| * 2 ^ ulpExp y
          ≤ 1 / 2 * 2 ^ ulpExp y := mul_le_mul_of_nonneg_right hm (le_of_lt hU)
        _ = 2 ^ ulpExp y / 2 := by ring
        _ ≤ _ := hhalf
    have e3 : |((roundHalfEven (y / 2 ^ ulpExp y) : ℤ) : ℚ) * 2 ^ ulpExp y| < 2 ^ 1024 := by
      have t1 := abs_sub_abs_le_abs_sub
        (((roundHalfEven (y / 2 ^ ulpExp y) : ℤ) : ℚ) * 2 ^ ulpExp y) y
      have t2 : |y| / 2 ^ 53 ≤ 2 ^ 1010 / 2 ^ 53 :=
        div_le_div_of_nonneg_right hy (by positivity)
      have t3 : (2 : ℚ) ^ 1010 + 2 ^ 1010 / 2 ^ 53 + 1 / 2 ^ 1075 < 2 ^ 1024 := by norm_num
      linarith
    exact ⟨_, by unfold float64; simp only; rw [if_pos e3]⟩

/-- The expression `math.Round(x*100) / 100` on a stored value of magnitude at
most `2 ^ 1000`. -/
theorem cents_spec (x : ℚ) (hx : |x| ≤ 2 ^ 1000) :
    ∃ (v : ℚ) (n : ℤ), cents x = some v ∧ float64 ((n : ℚ) / 100) = some v ∧
      |v - x| ≤ 5 / 1000 + (|x| + 1) / 2 ^ 51 := by
  have hA : 0 ≤ |x| := abs_nonneg x
  have hy : |x * 100| ≤ 2 ^ 1010 := by
    rw [abs_mul]
    have : |(100 : ℚ)| = 100 := by norm_num
    rw [this]
    have : (2 : ℚ) ^ 1000 * 100 ≤ 2 ^ 1010 := by norm_num
    nlinarith
  obtain ⟨p, hp⟩ := float64_total (x * 100) hy
  have hpe := float64_err _ _ hp
  obtain ⟨⟨n, hn⟩, hne⟩ := Round_spec p
  have hpa : |p| ≤ |x| * 100 + (|x| * 100 / 2 ^ 53 + 1 / 2 ^ 1075) := by
    have t1 := abs_sub_abs_le_abs_sub p (x * 100)
    have : |x * 100| = |x| * 100 := by rw [abs_mul]; norm_num
    rw [this] at t1 hpe
    linarith
  have hna : |(n : ℚ)| ≤ |p| + 1 / 2 := by
    have t1 := abs_sub_abs_le_abs_sub (n : ℚ) p
    rw [← hn]
    rw [← hn] at t1
    linarith
  have hq : |(n : ℚ) / 100| ≤ 2 ^ 1010 := by
    rw [abs_div]
    have : |(100 : ℚ)| = 100 := by norm_num
    rw [this, div_le_iff₀ (by norm_num)]
    have t3 : (2 : ℚ) ^ 1000 * 100 + (2 ^ 1000 * 100 / 2 ^ 53 + 1 / 2 ^ 1075) + 1 / 2 ≤
        2 ^ 1010 * 100 := by norm_num
    have t4 : |x| * 100 / 2 ^ 53 ≤ 2 ^ 1000 * 100 / 2 ^ 53 :=
      div_le_div_of_nonneg_right (by linarith) (by positivity)
    linarith
  obtain ⟨v, hv⟩ := float64_total ((n : ℚ) / 100) hq
  have hve := float64_err _ _ hv
  refine ⟨v, n, ?_, hv, ?_⟩
  · unfold cents
    rw [hp]
    show float64 (Round p / 100) = some v
    rw [hn]
    exact hv
  · have hqa : |(n : ℚ) / 100| = |(n : ℚ)| / 100 := by rw [abs_div]; norm_num
    rw [hqa] at hve
    have hxe : |x * 100| = |x| * 100 := by rw [abs_mul]; norm_num
    rw [hxe] at hpe
    have k1 : |(n : ℚ)| / 100 / 2 ^ 53 ≤
        (|x| * 100 + (|x| * 100 / 2 ^ 53 + 1 / 2 ^ 1075) + 1 / 2) / 100 / 2 ^ 53 := by
      apply div_le_div_of_nonneg_right _ (by positivity)
      apply div_le_div_of_nonneg_right _ (by norm_num)
      linarith
    have k2 : (|x| * 100 + (|x| * 100 / 2 ^ 53 + 1 / 2 ^ 1075) + 1 / 2) / 100 / 2 ^ 53
        + 1 / 2 ^ 1075 + (|x| * 100 / 2 ^ 53 + 1 / 2 ^ 1075) / 100 ≤ (|x| + 1) / 2 ^ 51 := by
      have e : (|x| * 100 + (|x| * 100 / 2 ^ 53 + 1 / 2 ^ 1075) + 1 / 2) / 100 / 2 ^ 53
        + 1 / 2 ^ 1075 + (|x| * 100 / 2 ^ 53 + 1 / 2 ^ 1075) / 100 =
        |x| * (1 / 2 ^ 53 + 1 / 2 ^ 106 + 1 / 2 ^ 53) +
          (1 / 2 ^ 1075 / 100 / 2 ^ 53 + 1 / 200 / 2 ^ 53 + 1 / 2 ^ 1075 +
            1 / 2 ^ 1075 / 100) := by ring
      rw [e]
      have c1 : (1 : ℚ) / 2 ^ 53 + 1 / 2 ^ 106 + 1 / 2 ^ 53 ≤ 1 / 2 ^ 51 := by norm_num
      have c2 : (1 : ℚ) / 2 ^ 1075 / 100 / 2 ^ 53 + 1 / 200 / 2 ^ 53 + 1 / 2 ^ 1075 +
            1 / 2 ^ 1075 / 100 ≤ 1 / 2 ^ 51 := by norm_num
      have c3 : |x| * (1 / 2 ^ 53 + 1 / 2 ^ 106 + 1 / 2 ^ 53) ≤ |x| * (1 / 2 ^ 51) :=
        mul_le_mul_of_nonneg_left c1 hA
      have e2 : (|x| + 1) / 2 ^ 51 = |x| * (1 / 2 ^ 51) + 1 / 2 ^ 51 := by ring
      rw [e2]
      linarith
    rw [← hn] at hve k1
    rw [abs_le] at hpe hne hve ⊢
    constructor <;> linarith [hpe.1, hpe.2, hne.1, hne.2, hve.1, hve.2]

/-- C9 as stated fails: the float64 nearest 1.115 is a stored value
(`float64` leaves it unchanged); its float64 product with 100 is exactly 111.5,
`math.Round` gives 112 and `GetCPUPwr` reports the float64 nearest 1.12, which
is more than 0.005 away from the stored value, and whose hundredfold is not an
integer. -/
theorem snapshot_tie_counterexample :
    float64 (5021513584518103 / 2 ^ 52) = some (5021513584518103 / 2 ^ 52) ∧
    (GetCPUPwr (storeCur init (5021513584518103 / 2 ^ 52) 0)).CPUCurrentPowerUsage =
      some (1261007895663739 / 2 ^ 50) ∧
    (5 : ℚ) / 1000 < |1261007895663739 / 2 ^ 50 - 5021513584518103 / 2 ^ 52| ∧
    ¬ RoundedToCents (1261007895663739 / 2 ^ 50) (5021513584518103 / 2 ^ 52) := by
  refine ⟨by decide!, by decide!, by norm_num [abs_of_pos], ?_⟩
  rintro ⟨_, hb⟩
  norm_num [abs_of_pos] at hb

/-- C9, amended: for every state of the globals whose stored figures are at most
`2 ^ 1000` in magnitude, each of the four numeric fields of the response of
`GetCPUPwr` and of `GetMemPwr` is a finite float64 `v` computed from the
matching global `x` as `math.Round(x*100) / 100`: `v` is the float64 nearest to
a whole number of hundredths and `|v - x| ≤ 0.005 + (|x| + 1) / 2 ^ 51`; in the
state set by `init` all eight reported values are 0. -/
theorem snapshot_cents (g : Globals) (hg : Bounded g) :
    ReportsCents (GetCPUPwr g).CPUCurrentPowerUsage g.cpuCurPwr ∧
    ReportsCents (GetCPUPwr g).CPUAveragePowerUsage g.cpuAvgPwr ∧
    ReportsCents (GetCPUPwr g).CPUMinPowerUsage g.cpuMinPwr ∧
    ReportsCents (GetCPUPwr g).CPUMaxPowerUsage g.cpuMaxPwr ∧
    ReportsCents (GetMemPwr g).MemoryCurrentPowerUsage g.memCurPwr ∧
    ReportsCents (GetMemPwr g).MemoryAveragePowerUsage g.memAvgPwr ∧
    ReportsCents (GetMemPwr g).MemoryMinPowerUsage g.memMinPwr ∧
    ReportsCents (GetMemPwr g).MemoryMaxPowerUsage g.memMaxPwr ∧
    GetCPUPwr init =
      { CPUAveragePowerUsage := some 0, CPUCurrentPowerUsage := some 0,
        CPUMinPowerUsage := some 0, CPUMaxPowerUsage := some 0 } ∧
    GetMemPwr init =
      { MemoryAveragePowerUsage := some 0, MemoryCurrentPowerUsage := some 0,
        MemoryMinPowerUsage := some 0, MemoryMaxPowerUsage := some 0 } := by
  obtain ⟨h1, h2, h3, h4, h5, h6, h7, h8⟩ := hg
  have hf : float64 0 = some 0 := by simp [float64, roundHalfEven]
  have hr : Round 0 = 0 := by norm_num [Round]
  have hz : cents 0 = some 0 := by
    unfold cents
    rw [zero_mul, hf]
    show float64 (Round 0 / 100) = some 0
    rw [hr, zero_div, hf]
  refine ⟨cents_spec _ h1, cents_spec _ h2, cents_spec _ h3, cents_spec _ h4,
    cents_spec _ h5, cents_spec _ h6, cents_spec _ h7, cents_spec _ h8, ?_, ?_⟩
  · simp only [GetCPUPwr, init, hz]
  · simp only [GetMemPwr, init, hz]

/-- Witness for C9, amended: the state in which `GetPower` has stored 12.5 and
3.25 watts. -/
theorem snapshot_cents_witness :
    ReportsCents (GetCPUPwr (storeCur init (25 / 2) (13 / 4))).CPUCurrentPowerUsage (25 / 2) :=
  (snapshot_cents (storeCur init (25 / 2) (13 / 4))
    (by norm_num [Bounded, storeCur, init, abs_of_pos])).1

/-! ## `GetPower` -/


/-- One iteration of the sampling loop on a tool output is a tick on the two
sums `GetPower` computes from it. -/
theorem tickOn_eq_tick (g : Globals) (strResp : GoString) :
    tickOn g strResp = tick g ((scanOutput strResp).cpuPwr, (scanOutput strResp).memPwr) := rfl

theorem matchTail_chars (rest : GoString) : ∀ c ∈ matchTail rest, tokenChar c = true := by
  have ha : ∀ c ∈ rest.takeWhile digitOrComma, tokenChar c = true := by
    intro c hc
    have h := List.mem_takeWhile_imp hc
    simp only [digitOrComma, Bool.or_eq_true] at h
    simp only [tokenChar, Bool.or_eq_true]
    tauto
  have hb : ∀ (l : GoString), ∀ c ∈ l.takeWhile digitOrBrace, tokenChar c = true := by
    intro l c hc
    have h := List.mem_takeWhile_imp hc
    simp only [digitOrBrace, Bool.or_eq_true] at h
    simp only [tokenChar, Bool.or_eq_true]
    tauto
  intro c hc
  unfold matchTail at hc
  simp only at hc
  split at hc
  · exact ha c hc
  · split_ifs at hc with hdot
    · rcases List.mem_append.mp hc with h | h
      · exact ha c h
      · rcases List.mem_cons.mp h with h2 | h2
        · rw [h2]; rfl
        · exact hb _ c h2
    · rcases List.mem_append.mp hc with h | h
      · exact ha c h
      · exact hb _ c h

/-- A match at the head of a string is non-empty, made of token characters,
and the string has a digit. -/
theorem matchHere_some (s m : GoString) (h : matchHere s = some m) :
    m ≠ [] ∧ (∀ c ∈ m, tokenChar c = true) ∧ ∃ d ∈ s, d.isDigit = true := by
  cases s with
  | nil => exact absurd h (by simp [matchHere])
  | cons a t =>
    by_cases h1 : a = '-'
    · subst h1
      cases t with
      | nil => exact absurd h (by simp [matchHere])
      | cons d rest =>
        by_cases h3 : d.isDigit = true
        · have hm : m = '-' :: d :: matchTail rest := by
            have h5 : matchHere ('-' :: d :: rest) = some ('-' :: d :: matchTail rest) := by
              simp [matchHere, h3]
            rw [h5] at h
            exact (Option.some.inj h).symm
          subst hm
          refine ⟨by simp, ?_, ⟨d, by simp, h3⟩⟩
          intro c hc
          rcases List.mem_cons.mp hc with h4 | h4
          · rw [h4]; rfl
          · rcases List.mem_cons.mp h4 with h6 | h6
            · rw [h6]; simp [tokenChar, h3]
            · exact matchTail_chars _ c h6
        · exact absurd h (by simp [matchHere, h3])
    · by_cases h2 : a.isDigit = true
      · have hm : m = a :: matchTail t := by
          have h5 : matchHere (a :: t) = some (a :: matchTail t) := by
            simp [matchHere, h1, h2]
          rw [h5] at h
          exact (Option.some.inj h).symm
        subst hm
        refine ⟨by simp, ?_, ⟨a, by simp, h2⟩⟩
        intro c hc
        rcases List.mem_cons.mp hc with h4 | h4
        · rw [h4]; simp [tokenChar, h2]
        · exact matchTail_chars _ c h4
      · exact absurd h (by simp [matchHere, h1, h2])

/-- No match at the head: the first character is not a digit. -/
theorem matchHere_none (a : Char) (t : GoString) (h : matchHere (a :: t) = none) :
    a.isDigit = false := by
  by_cases h1 : a = '-'
  · rw [h1]; rfl
  · by_cases h2 : a.isDigit = true
    · exact absurd h (by simp [matchHere, h1, h2])
    · exact (Bool.not_eq_true _).mp h2

theorem FindString_cons (a : Char) (t : GoString) :
    FindString (a :: t) =
      match matchHere (a :: t) with
      | some m => m
      | none => FindString t := rfl

/-- Whatever `FindString` returns is made of sign, digits, comma, dot and
braces only: the strings on which `ParseFloat` is modelled. -/
theorem FindString_chars (s : GoString) : ∀ c ∈ FindString s, tokenChar c = true := by
  induction s with
  | nil => intro c hc; simp [FindString] at hc
  | cons a s ih =>
    intro c hc
    rw [FindString_cons] at hc
    cases hm : matchHere (a :: s) with
    | some m =>
      rw [hm] at hc
      exact (matchHere_some _ m hm).2.1 c hc
    | none =>
      rw [hm] at hc
      exact ih c hc

/-- The function `FindString` returns the empty string exactly when the line
has no digit. -/
theorem FindString_eq_nil_iff (s : GoString) :
    FindString s = [] ↔ ∀ c ∈ s, c.isDigit = false := by
  induction s with
  | nil => simp [FindString]
  | cons a s ih =>
    rw [FindString_cons]
    cases hm : matchHere (a :: s) with
    | some m =>
      obtain ⟨hne, _, d, hd, hdig⟩ := matchHere_some _ m hm
      constructor
      · intro h; exact absurd h hne
      · intro hall
        rw [hall d hd] at hdig
        exact absurd hdig (by simp)
    | none =>
      have ha := matchHere_none a s hm
      show FindString s = [] ↔ _
      rw [ih]
      constructor
      · intro h c hc
        rcases List.mem_cons.mp hc with h4 | h4
        · rw [h4]; exact ha
        · exact h c h4
      · intro h c hc
        exact h c (List.mem_cons_of_mem _ hc)

/-- A power line without a numeric token adds nothing to either sum. -/
theorem scanLine_noToken (st : Scan) (s : GoString) (h : NoToken s) :
    (scanLine st s).cpuPwr = st.cpuPwr ∧ (scanLine st s).memPwr = st.memPwr := by
  have hz : ParseFloat [] = 0 := rfl
  unfold scanLine
  split_ifs with h1 h2 h3 h4 h5
  · exact ⟨rfl, rfl⟩
  · exact ⟨rfl, rfl⟩
  · have hf : FindString s = [] := h ((Bool.not_eq_true _).mp h1) ((Bool.not_eq_true _).mp h2) h3
    refine ⟨?_, rfl⟩
    show st.cpuPwr + ParseFloat (FindString s) = st.cpuPwr
    rw [hf, hz, add_zero]
  · have hf : FindString s = [] := h ((Bool.not_eq_true _).mp h1) ((Bool.not_eq_true _).mp h2) h3
    refine ⟨rfl, ?_⟩
    show st.memPwr + ParseFloat (FindString s) = st.memPwr
    rw [hf, hz, add_zero]
  · exact ⟨rfl, rfl⟩
  · exact ⟨rfl, rfl⟩

/-- Over lines without numeric tokens the two sums keep their values. -/
theorem foldl_scanLine_noToken (ls : List GoString) :
    ∀ st : Scan, (∀ s ∈ ls, NoToken s) →
      (ls.foldl scanLine st).cpuPwr = st.cpuPwr ∧ (ls.foldl scanLine st).memPwr = st.memPwr := by
  induction ls with
  | nil => intro st _; exact ⟨rfl, rfl⟩
  | cons l ls ih =>
    intro st h
    obtain ⟨h1, h2⟩ := ih (scanLine st l) (fun s hs => h s (List.mem_cons_of_mem _ hs))
    obtain ⟨h3, h4⟩ := scanLine_noToken st l (h l (List.mem_cons_self _ _))
    rw [List.foldl_cons, h1, h2, h3, h4]
    exact ⟨rfl, rfl⟩

/-- C8 as stated fails: after a tick on a well-formed output `cpuCurPwr` is 12.5
and `memCurPwr` is 3.25; on the next output the power line after the PKG marker
and the one after the DRAM marker carry no numeric token (`FindString` returns
the empty string), and `GetPower` sets both figures to 0 instead of keeping
them. -/
theorem malformed_line_resets_counterexample :
    FindString "Power consumed: n/a Watt".toList = [] ∧
    (GetPower init
      "Domain PKG:\nPower consumed: 12.5 Watt\nDomain DRAM:\nPower consumed: 3.25 Watt\n".toList).cpuCurPwr
      = 25 / 2 ∧
    (GetPower init
      "Domain PKG:\nPower consumed: 12.5 Watt\nDomain DRAM:\nPower consumed: 3.25 Watt\n".toList).memCurPwr
      = 13 / 4 ∧
    (GetPower
      (GetPower init
        "Domain PKG:\nPower consumed: 12.5 Watt\nDomain DRAM:\nPower consumed: 3.25 Watt\n".toList)
      "Domain PKG:\nPower consumed: n/a Watt\nDomain DRAM:\nPower consumed: n/a Watt\n".toList).cpuCurPwr
      = 0 ∧
    (GetPower
      (GetPower init
        "Domain PKG:\nPower consumed: 12.5 Watt\nDomain DRAM:\nPower consumed: 3.25 Watt\n".toList)
      "Domain PKG:\nPower consumed: n/a Watt\nDomain DRAM:\nPower consumed: n/a Watt\n".toList).memCurPwr
      = 0 := by
  decide!

/-- C8, amended: a "Power consumed" line without a numeric token adds 0 to the
sum of its metric; `GetPower` stores the sums of the current output whatever the
globals held before, so its results do not depend on the prior state; and when
no power line of the output has a numeric token, `cpuCurPwr` and `memCurPwr`
both become 0. -/
theorem getPower_overwrites (g : Globals) (strResp : GoString) :
    (∀ (st : Scan) (s : GoString), NoToken s →
      (scanLine st s).cpuPwr = st.cpuPwr ∧ (scanLine st s).memPwr = st.memPwr) ∧
    (∀ g2 : Globals,
      (GetPower g strResp).cpuCurPwr = (GetPower g2 strResp).cpuCurPwr ∧
      (GetPower g strResp).memCurPwr = (GetPower g2 strResp).memCurPwr) ∧
    ((∀ s ∈ splitLines strResp, NoToken s) →
      (GetPower g strResp).cpuCurPwr = 0 ∧ (GetPower g strResp).memCurPwr = 0) := by
  refine ⟨scanLine_noToken, fun g2 => ⟨rfl, rfl⟩, fun h => ?_⟩
  obtain ⟨h1, h2⟩ := foldl_scanLine_noToken (splitLines strResp) Scan.start h
  exact ⟨h1, h2⟩

/-- Witness for C8, amended: an output whose only power line reads `n/a`, met
in a state where `cpuCurPwr` is 12.5. -/
theorem getPower_overwrites_witness :
    (GetPower (storeCur init (25 / 2) (13 / 4))
      "Domain PKG:\nPower consumed: n/a Watt".toList).cpuCurPwr = 0 :=
  ((getPower_overwrites (storeCur init (25 / 2) (13 / 4))
    "Domain PKG:\nPower consumed: n/a Watt".toList).2.2 (by decide)).1

/-! ## The control loop of `Broker.Listen` -/

theorem Listen_nil (b : Broker) : Listen b [] = .ok b := rfl

theorem Listen_cons (b : Broker) (c : Cmd) (cs : List Cmd) :
    Listen b (c :: cs) =
      match handle b c with
      | .ok b1 => Listen b1 cs
      | .error p => .error p := by
  simp only [Listen, List.foldlM_cons]
  cases handle b c <;> rfl

theorem sendAll_cons (msg : Msg) (s : Chan) (l : List Chan) (b : Broker) :
    (s :: l).foldlM (fun acc c => send acc c msg) b =
      if b.closed s then .error Panic.sendOnClosedChannel
      else l.foldlM (fun acc c => send acc c msg)
        { b with received := Function.update b.received s (b.received s ++ [msg]) } := by
  simp only [List.foldlM_cons, send]
  split_ifs <;> rfl

/-- A completed pass of the fan-out loop over distinct channels: every channel
visited was open and got one more message, nothing else changed. -/
theorem sendAll_ok (msg : Msg) (l : List Chan) :
    ∀ b b2 : Broker, l.Nodup → l.foldlM (fun acc c => send acc c msg) b = .ok b2 →
      b2.clients = b.clients ∧ b2.closed = b.closed ∧
      (∀ c, b2.received c = if c ∈ l then b.received c ++ [msg] else b.received c) ∧
      (∀ c ∈ l, b.closed c = false) := by
  induction l with
  | nil =>
    intro b b2 _ h
    have hb : b = b2 := by
      have h2 : (Except.ok b : Except Panic Broker) = .ok b2 := h
      exact Except.ok.inj h2
    subst hb
    simp
  | cons s l ih =>
    intro b b2 hnd h
    rw [sendAll_cons] at h
    obtain ⟨hs, hnd2⟩ := List.nodup_cons.mp hnd
    by_cases hc : b.closed s = true
    · rw [if_pos hc] at h
      exact absurd h (by simp)
    · rw [if_neg hc] at h
      obtain ⟨h1, h2, h3, h4⟩ := ih _ b2 hnd2 h
      refine ⟨h1, h2, ?_, ?_⟩
      · intro c
        rw [h3 c]
        by_cases hcs : c = s
        · subst hcs
          simp [hs]
        · by_cases hcl : c ∈ l
          · simp [hcl, hcs, Function.update_noteq hcs]
          · simp [hcl, hcs, Function.update_noteq hcs]
      · intro c hcm
        rcases List.mem_cons.mp hcm with h5 | h5
        · rw [h5]; exact (Bool.not_eq_true _).mp hc
        · exact h4 c h5

/-- The fan-out loop over open channels completes. -/
theorem sendAll_total (msg : Msg) (l : List Chan) :
    ∀ b : Broker, (∀ c ∈ l, b.closed c = false) →
      ∃ b2, l.foldlM (fun acc c => send acc c msg) b = .ok b2 := by
  induction l with
  | nil => intro b _; exact ⟨b, rfl⟩
  | cons s l ih =>
    intro b h
    rw [sendAll_cons]
    have hs : ¬ (b.closed s = true) := by rw [h s (List.mem_cons_self _ _)]; simp
    rw [if_neg hs]
    exact ih _ (fun c hc => h c (List.mem_cons_of_mem _ hc))

/-- The order in which the fan-out loop visits the registered channels does not
matter: two completed passes over the same distinct channels, in any two orders,
leave every channel with the same messages and the same state. -/
theorem sendAll_order (msg : Msg) (l1 l2 : List Chan) (b b1 b2 : Broker)
    (hn1 : l1.Nodup) (hn2 : l2.Nodup) (hperm : ∀ c, c ∈ l1 ↔ c ∈ l2)
    (h1 : l1.foldlM (fun acc c => send acc c msg) b = .ok b1)
    (h2 : l2.foldlM (fun acc c => send acc c msg) b = .ok b2) :
    b1.clients = b2.clients ∧ b1.closed = b2.closed ∧ ∀ c, b1.received c = b2.received c := by
  obtain ⟨a1, a2, a3, _⟩ := sendAll_ok msg l1 b b1 hn1 h1
  obtain ⟨c1, c2, c3, _⟩ := sendAll_ok msg l2 b b2 hn2 h2
  refine ⟨a1.trans c1.symm, a2.trans c2.symm, fun c => ?_⟩
  rw [a3 c, c3 c]
  by_cases hc : c ∈ l1
  · rw [if_pos hc, if_pos ((hperm c).mp hc)]
  · rw [if_neg hc, if_neg (fun h => hc ((hperm c).mpr h))]

/-- A completed fan-out: membership and channel states are kept, every
registered channel was open and got exactly one more message, no other channel
got any. -/
theorem fanOut_ok (b b2 : Broker) (msg : Msg) (h : fanOut b msg = .ok b2) :
    b2.clients = b.clients ∧ b2.closed = b.closed ∧
    (∀ c, b2.received c = if c ∈ b.clients then b.received c ++ [msg] else b.received c) ∧
    (∀ c ∈ b.clients, b.closed c = false) := by
  obtain ⟨h1, h2, h3, h4⟩ := sendAll_ok msg _ b b2 (Finset.sort_nodup _ _) h
  refine ⟨h1, h2, ?_, ?_⟩
  · intro c
    rw [h3 c]
    simp only [Finset.mem_sort]
  · intro c hc
    exact h4 c ((Finset.mem_sort _).mpr hc)

/-- The fan-out completes when no registered channel is closed. -/
theorem fanOut_total (b : Broker) (msg : Msg) (h : ∀ c ∈ b.clients, b.closed c = false) :
    ∃ b2, fanOut b msg = .ok b2 :=
  sendAll_total msg _ b (fun c hc => h c ((Finset.mem_sort _).mp hc))

/-- A completed run from `b`: each channel has received, after what it already
had, the events published while it was registered. -/
theorem Listen_received (cmds : List Cmd) (c : Chan) :
    ∀ b b2 : Broker, Listen b cmds = .ok b2 →
      b2.received c =
        b.received c ++ publishedWhileRegistered c (decide (c ∈ b.clients)) cmds := by
  induction cmds with
  | nil =>
    intro b b2 h
    have hb : b = b2 := Except.ok.inj h
    subst hb
    simp [publishedWhileRegistered]
  | cons cmd cmds ih =>
    intro b b2 h
    rw [Listen_cons] at h
    cases cmd with
    | newClients s =>
      have h2 : Listen { b with clients := insert s b.clients } cmds = .ok b2 := h
      rw [ih _ b2 h2, publishedWhileRegistered]
      congr 2
      by_cases hcs : s = c
      · subst hcs; simp
      · have hcs2 : ¬ c = s := fun e => hcs e.symm
        simp [Finset.mem_insert, hcs, hcs2]
    | defunctClients s =>
      by_cases hc : b.closed s = true
      · have he : handle b (Cmd.defunctClients s) = .error Panic.closeOfClosedChannel := by
          simp [handle, closeChan, hc]
        rw [he] at h
        exact absurd h (by simp)
      · have he : handle b (Cmd.defunctClients s) =
            .ok { b with clients := b.clients.erase s,
                         closed := Function.update b.closed s true } := by
          simp [handle, closeChan, hc]
        rw [he] at h
        have h2 : Listen { b with clients := b.clients.erase s,
                                  closed := Function.update b.closed s true } cmds = .ok b2 := h
        rw [ih _ b2 h2, publishedWhileRegistered]
        congr 2
        by_cases hcs : s = c
        · subst hcs; simp
        · have hcs2 : ¬ c = s := fun e => hcs e.symm
          simp [Finset.mem_erase, hcs, hcs2]
    | tempData msg =>
      cases hf : handle b (Cmd.tempData msg) with
      | error p => rw [hf] at h; exact absurd h (by simp)
      | ok b1 =>
        rw [hf] at h
        have h2 : Listen b1 cmds = .ok b2 := h
        obtain ⟨f1, _, f3, _⟩ := fanOut_ok b b1 msg hf
        rw [ih b1 b2 h2, f3 c, f1, publishedWhileRegistered]
        by_cases hm : c ∈ b.clients <;> simp [hm]

/-- The bookkeeping that ties a broker state to the channels `ServeHTTP` has
registered (`made`) and pushed to `defunctClients` (`gone`). -/
theorem serveHTTP_run (cmds : List Cmd) :
    ∀ (b : Broker) (made gone : List Chan),
      (∀ s ∈ b.clients, s ∉ gone) → (∀ s, b.closed s = true → s ∈ gone) →
      (∀ s ∈ gone, s ∈ made) → fromServeHTTP made gone cmds = true →
      ∃ b2, Listen b cmds = .ok b2 ∧ ∀ s ∈ b2.clients, b2.closed s = false := by
  induction cmds with
  | nil =>
    intro b made gone h1 h2 _ _
    refine ⟨b, rfl, fun s hs => ?_⟩
    by_contra hc
    exact h1 s hs (h2 s ((Bool.not_eq_false _).mp hc))
  | cons cmd cmds ih =>
    intro b made gone h1 h2 h3 hv
    rw [Listen_cons]
    cases cmd with
    | newClients s =>
      simp only [fromServeHTTP, Bool.and_eq_true, decide_eq_true_eq] at hv
      obtain ⟨hnew, hrest⟩ := hv
      have hsg : s ∉ gone := fun hg => hnew (h3 s hg)
      refine ih { b with clients := insert s b.clients } (s :: made) gone ?_ h2 ?_ hrest
      · intro c hc
        rcases Finset.mem_insert.mp hc with h | h
        · rw [h]; exact hsg
        · exact h1 c h
      · intro c hc
        exact List.mem_cons_of_mem _ (h3 c hc)
    | defunctClients s =>
      simp only [fromServeHTTP, Bool.and_eq_true, decide_eq_true_eq] at hv
      obtain ⟨⟨hmade, hng⟩, hrest⟩ := hv
      have hc : ¬ (b.closed s = true) := fun h => hng (h2 s h)
      have he : handle b (Cmd.defunctClients s) =
          .ok { b with clients := b.clients.erase s,
                       closed := Function.update b.closed s true } := by
        simp [handle, closeChan, hc]
      rw [he]
      refine ih _ made (s :: gone) ?_ ?_ ?_ hrest
      · intro c hcm hcg
        obtain ⟨hne, hin⟩ := Finset.mem_erase.mp hcm
        rcases List.mem_cons.mp hcg with h | h
        · exact hne h
        · exact h1 c hin h
      · intro c hcc
        by_cases hcs : c = s
        · rw [hcs]; exact List.mem_cons_self _ _
        · have : b.closed c = true := by
            simpa [Function.update_noteq hcs] using hcc
          exact List.mem_cons_of_mem _ (h2 c this)
      · intro c hcg
        rcases List.mem_cons.mp hcg with h | h
        · rw [h]; exact hmade
        · exact h3 c h
    | tempData msg =>
      have hopen : ∀ c ∈ b.clients, b.closed c = false := by
        intro c hc
        by_contra hcl
        exact h1 c hc (h2 c ((Bool.not_eq_false _).mp hcl))
      obtain ⟨b1, hb1⟩ := fanOut_total b msg hopen
      have he : handle b (Cmd.tempData msg) = .ok b1 := hb1
      obtain ⟨f1, f2, _, _⟩ := fanOut_ok b b1 msg hb1
      rw [he]
      refine ih b1 made gone ?_ ?_ h3 hv
      · intro c hc; rw [f1] at hc; exact h1 c hc
      · intro c hc; rw [f2] at hc; exact h2 c hc

/-- An initial segment of a sequence `ServeHTTP` can produce is one too. -/
theorem fromServeHTTP_take (cmds : List Cmd) :
    ∀ (made gone : List Chan) (n : Nat),
      fromServeHTTP made gone cmds = true → fromServeHTTP made gone (cmds.take n) = true := by
  induction cmds with
  | nil => intro made gone n h; simpa using h
  | cons cmd cmds ih =>
    intro made gone n h
    cases n with
    | zero => rfl
    | succ n =>
      rw [List.take_succ_cons]
      cases cmd with
      | newClients s =>
        simp only [fromServeHTTP, Bool.and_eq_true] at h ⊢
        exact ⟨h.1, ih _ _ n h.2⟩
      | defunctClients s =>
        simp only [fromServeHTTP, Bool.and_eq_true] at h ⊢
        exact ⟨h.1, ih _ _ n h.2⟩
      | tempData msg =>
        simp only [fromServeHTTP] at h ⊢
        exact ih _ _ n h

/-! ## The claims about the broker -/

/-- C5: in a broker state whose registered channels are all open (the states the
program reaches), handling one message `e` from `tempData` completes, appends
`e` exactly once to what each channel of `b.clients` has received, gives nothing
to any channel outside `b.clients`, and leaves `b.clients` and the open/closed
state of every channel as they were. In particular a channel `s` registered
through `newClients` just before the publish receives `e`. -/
theorem fanOut_delivers (b : Broker) (e : Msg)
    (hopen : ∀ s ∈ b.clients, b.closed s = false) :
    (∃ b2, handle b (Cmd.tempData e) = .ok b2 ∧
      b2.clients = b.clients ∧ b2.closed = b.closed ∧
      (∀ s ∈ b.clients, b2.received s = b.received s ++ [e]) ∧
      (∀ s, s ∉ b.clients → b2.received s = b.received s)) ∧
    (∀ s, b.closed s = false →
      ∃ b3, Listen b [Cmd.newClients s, Cmd.tempData e] = .ok b3 ∧
        s ∈ b3.clients ∧ b3.received s = b.received s ++ [e]) := by
  constructor
  · obtain ⟨b2, h2⟩ := fanOut_total b e hopen
    obtain ⟨f1, f2, f3, _⟩ := fanOut_ok b b2 e h2
    refine ⟨b2, h2, f1, f2, ?_, ?_⟩
    · intro s hs; rw [f3 s, if_pos hs]
    · intro s hs; rw [f3 s, if_neg hs]
  · intro s hs
    have hopen2 : ∀ c ∈ insert s b.clients, b.closed c = false := by
      intro c hc
      rcases Finset.mem_insert.mp hc with h | h
      · rw [h]; exact hs
      · exact hopen c h
    obtain ⟨b3, h3⟩ := fanOut_total { b with clients := insert s b.clients } e hopen2
    obtain ⟨f1, _, f3, _⟩ := fanOut_ok _ b3 e h3
    refine ⟨b3, ?_, ?_, ?_⟩
    · rw [Listen_cons]
      show Listen { b with clients := insert s b.clients } [Cmd.tempData e] = .ok b3
      rw [Listen_cons]
      have he : handle { b with clients := insert s b.clients } (Cmd.tempData e) = .ok b3 := h3
      rw [he]
      rfl
    · rw [f1]; exact Finset.mem_insert_self _ _
    · rw [f3 s]
      simp

/-- Witness for C5, Scenario C: two registered clients, one publish; each
receives exactly one copy and a third channel receives nothing. -/
theorem fanOut_delivers_witness :
    ∃ b2, handle { clients := {1, 2}, closed := fun _ => false, received := fun _ => [] }
        (Cmd.tempData [38, 25]) = .ok b2 ∧
      b2.received 1 = [[38, 25]] ∧ b2.received 2 = [[38, 25]] ∧ b2.received 3 = [] := by
  obtain ⟨⟨b2, h, _, _, hin, hout⟩, _⟩ :=
    fanOut_delivers { clients := {1, 2}, closed := fun _ => false, received := fun _ => [] }
      [38, 25] (fun _ _ => rfl)
  exact ⟨b2, h, hin 1 (by decide), hin 2 (by decide), hout 3 (by decide)⟩

/-- C6: for every sequence of subscribe / unsubscribe / publish commands that
the control loop of `Listen` handles from the broker of `main`, what a channel
has received is exactly the list of events published while it was registered,
in publish order: nothing published before its registration or after its
removal. -/
theorem delivery_only_while_registered (cmds : List Cmd) (b : Broker)
    (h : Listen Broker.start cmds = .ok b) (c : Chan) :
    b.received c = publishedWhileRegistered c false cmds := by
  have h2 := Listen_received cmds c Broker.start b h
  rw [h2]
  simp [Broker.start]

/-- Witness for C6, Scenario B with an earlier publish: an event before the
registration of channel 1, one while it is registered, one after its removal;
channel 1 has received the middle one only. -/
theorem delivery_only_while_registered_witness :
    ∃ b, Listen Broker.start
        [Cmd.tempData [37], Cmd.newClients 1, Cmd.tempData [38], Cmd.defunctClients 1,
          Cmd.tempData [39]] = .ok b ∧
      b.received 1 = [[38]] := by
  obtain ⟨b, hb, _⟩ := serveHTTP_run
    [Cmd.tempData [37], Cmd.newClients 1, Cmd.tempData [38], Cmd.defunctClients 1,
      Cmd.tempData [39]] Broker.start [] []
    (fun _ _ => List.not_mem_nil _) (fun _ hc => absurd hc (by simp [Broker.start]))
    (fun _ hs => absurd hs (List.not_mem_nil _)) (by decide)
  exact ⟨b, hb, (delivery_only_while_registered _ b hb 1).trans (by decide)⟩

/-- C7 as stated fails: after channel 0 has been registered and then removed and
closed by a `defunctClients` command, a second `defunctClients` command for it
panics with "close of closed channel". -/
theorem second_unsubscribe_counterexample :
    ∃ b, Listen Broker.start [Cmd.newClients 0, Cmd.defunctClients 0] = .ok b ∧
      b.closed 0 = true ∧ 0 ∉ b.clients ∧
      handle b (Cmd.defunctClients 0) = .error Panic.closeOfClosedChannel ∧
      Listen Broker.start [Cmd.newClients 0, Cmd.defunctClients 0, Cmd.defunctClients 0] =
        .error Panic.closeOfClosedChannel :=
  ⟨{ clients := (insert 0 ∅ : Finset Chan).erase 0,
     closed := Function.update (fun _ => false) 0 true,
     received := fun _ => [] }, rfl, rfl, by decide, rfl, rfl⟩

/-- C7, amended: a `defunctClients` command for a channel `s` is safe once. If
`s` is still open the command completes, removes `s` from `b.clients`, closes
`s`, and changes neither the state of any other channel nor what any channel has
received. If `s` has already been closed, handling the command is not a no-op:
it panics with "close of closed channel". -/
theorem unsubscribe_once (b : Broker) (s : Chan) :
    (b.closed s = false →
      ∃ b2, handle b (Cmd.defunctClients s) = .ok b2 ∧
        b2.clients = b.clients.erase s ∧ b2.closed s = true ∧
        (∀ c, c ≠ s → b2.closed c = b.closed c) ∧ b2.received = b.received) ∧
    (b.closed s = true →
      handle b (Cmd.defunctClients s) = .error Panic.closeOfClosedChannel) := by
  constructor
  · intro h
    refine ⟨{ b with clients := b.clients.erase s, closed := Function.update b.closed s true },
      by simp [handle, closeChan, h], rfl, by simp, ?_, rfl⟩
    intro c hc
    simp [Function.update_noteq hc]
  · intro h
    simp [handle, closeChan, h]

/-- Witness for C7, amended: the first removal of a registered open channel
completes, the second one panics. -/
theorem unsubscribe_once_witness :
    (∃ b2, handle { clients := {4}, closed := fun _ => false, received := fun _ => [] }
        (Cmd.defunctClients 4) = .ok b2 ∧ b2.clients = ({4} : Finset Chan).erase 4 ∧
        b2.closed 4 = true) ∧
    handle { clients := ∅, closed := fun c => decide (c = 4), received := fun _ => [] }
      (Cmd.defunctClients 4) = .error Panic.closeOfClosedChannel := by
  constructor
  · obtain ⟨b2, h1, h2, h3, _⟩ :=
      (unsubscribe_once { clients := {4}, closed := fun _ => false, received := fun _ => [] }
        4).1 rfl
    exact ⟨b2, h1, h2, h3⟩
  · exact (unsubscribe_once
      { clients := ∅, closed := fun c => decide (c = 4), received := fun _ => [] } 4).2 rfl

/-- C10: for every command sequence `ServeHTTP` can produce (each channel new,
registered once, pushed to `defunctClients` at most once and only after its
registration), the control loop started from the broker of `main` handles every
initial segment of the sequence without a panic, and in the state it reaches no
channel of `b.clients` is closed. -/
theorem registry_invariant (cmds : List Cmd) (h : fromServeHTTP [] [] cmds = true) (n : Nat) :
    ∃ b, Listen Broker.start (cmds.take n) = .ok b ∧ ∀ s ∈ b.clients, b.closed s = false :=
  serveHTTP_run (cmds.take n) Broker.start [] []
    (fun _ _ => List.not_mem_nil _) (fun _ hc => absurd hc (by simp [Broker.start]))
    (fun _ hs => absurd hs (List.not_mem_nil _)) (fromServeHTTP_take cmds [] [] n h)

/-- Witness for C10: two clients connect, events are published, one client
disconnects, the run is taken up to its fifth command. -/
theorem registry_invariant_witness :
    ∃ b, Listen Broker.start
        (([Cmd.newClients 1, Cmd.tempData [38], Cmd.newClients 2, Cmd.defunctClients 1,
          Cmd.tempData [39], Cmd.defunctClients 2] : List Cmd).take 5) = .ok b ∧
      ∀ s ∈ b.clients, b.closed s = false :=
  registry_invariant
    [Cmd.newClients 1, Cmd.tempData [38], Cmd.newClients 2, Cmd.defunctClients 1,
      Cmd.tempData [39], Cmd.defunctClients 2] (by decide) 5

end PowerEmu
